import Mathlib

/-!
Verification of the keyed scope reconciler of the vue-reactivity repository.

The repository contains two variants of the same function `useScopePerKey`:
* `src/src/deep-reactivity.ts` (modelled here with suffix `Deep`): a
  `computed` of the object keys is watched (`immediate: true, flush: 'sync'`);
  the watch callback creates one effect scope per new key, runs the handler in
  it and then registers an `onScopeDispose` hook that removes the key from the
  `childScopes` map; the returned disposer stops the parent scope.
* `src/unnamed/part_000` (suffix `Eff`): a `watchEffect` diffs the current
  object keys against the keys of the `childScopes` map, first stopping and
  deleting the scopes of removed keys, then creating a scope and running the
  handler for each added key; the returned function is the watch-effect stop
  handle.

The reactive runtime (Vue's `effectScope` / `watch` machinery) is an external
collaborator of the repository; it is modelled here following its documented
contract (spec section 6): `EffectScope.stop` marks the scope inert first and
is therefore idempotent and safe under re-entrant calls, disposal hooks run in
registration order, and scopes created while a scope is the active one become
its children.  Reconciliation passes execute synchronously inside the
reconciler's top-level scope, so per-key scopes are children of that scope.

Caller-supplied handlers are modelled by the effects the specification makes
observable: a handler invocation is logged, it may register disposal hooks on
the scope it runs in, and it may throw.  Handlers never touch the reconciler's
private `childScopes` map nor the watched ref; the `fired`, `handlerLog` and
`scopeKey` fields are observation logs and are written by no operation except
the ones that log them.
-/

namespace VueScope

/-- Object keys are strings, as produced by `Object.keys`. -/
abbrev Key := String

/-- A disposal hook registered on a scope via `onScopeDispose`: either the
self-removing hook of `deep-reactivity.ts` (which stops and deletes the
registry entry of its key) or an abstract caller-registered hook identified by
a numeric tag. -/
inductive HookK where
  | selfRemove (key : Key)
  | user (tag : Nat)
deriving DecidableEq, Repr

/-- Global state of the reconciler together with the modelled runtime.
`registry` is the `childScopes` map (an association list in insertion order,
exactly like a JS `Map`), `activeIds` the scopes not yet stopped,
`scopeParent` the child-to-parent scope nesting, `hooks` the registered
disposal hooks in registration order, and `inputObj` the current value of the
watched ref.  `fired`, `handlerLog` and `scopeKey` are observation logs. -/
structure St where
  inputObj : List (Key × Int)
  topScope : Nat
  nextId : Nat
  activeIds : List Nat
  scopeParent : List (Nat × Nat)
  scopeKey : List (Nat × Key)
  hooks : List (Nat × HookK)
  registry : List (Key × Nat)
  fired : List (Nat × HookK)
  handlerLog : List Key
  watchActive : Bool
  watchOwner : Option Nat
deriving DecidableEq, Repr

/-- Lookup in the `childScopes` map (`Map.prototype.get`). -/
def registryGet : List (Key × Nat) → Key → Option Nat
  | [], _ => none
  | p :: rest, k => if p.1 = k then some p.2 else registryGet rest k

/-- Membership test of the `childScopes` map (`Map.prototype.has`). -/
def registryHas (reg : List (Key × Nat)) (k : Key) : Bool :=
  (registryGet reg k).isSome

/-- Deletion from the `childScopes` map (`Map.prototype.delete`); a JS map
holds each key at most once, so removing the first matching entry is exact. -/
def registryDelete : List (Key × Nat) → Key → List (Key × Nat)
  | [], _ => []
  | p :: rest, k => if p.1 = k then rest else p :: registryDelete rest k

/-- Insertion into the `childScopes` map (`Map.prototype.set`): an existing
key keeps its position and gets the new value, a new key is appended. -/
def registrySet : List (Key × Nat) → Key → Nat → List (Key × Nat)
  | [], k, v => [(k, v)]
  | p :: rest, k, v => if p.1 = k then (k, v) :: rest else p :: registrySet rest k v

/-- Disposal hooks registered on a scope, in registration order. -/
def hooksOf (st : St) (sid : Nat) : List HookK :=
  (st.hooks.filter (fun p => p.1 == sid)).map Prod.snd

/-- Child scopes of a scope, in creation order. -/
def childrenOf (st : St) (sid : Nat) : List Nat :=
  (st.scopeParent.filter (fun q => q.2 == sid)).map Prod.fst

/-- First action of `EffectScope.stop`: mark the scope inert, and cancel the
top-level watcher when this scope owns it. -/
def eraseActive (sid : Nat) (st : St) : St :=
  { st with
    activeIds := st.activeIds.erase sid,
    watchActive := if st.watchOwner = some sid then false else st.watchActive }

/-- One effect-scope stop (`EffectScope.stop`), bounded by a fuel that only
decreases when stopping recurses into another scope (child cascade, or a
self-removing hook stopping the scope registered for its key).  The scope is
marked inert before its hooks run, so a re-entrant stop of the same scope is a
no-op; stopping an already inert scope is a no-op.  Stopping the scope that
owns the top-level watcher cancels that watcher.  The re-entrancy depth of the
reconciler is at most three (parent, then a child, then the child's
self-removing hook stopping an already inert scope), so any fuel of at least
four gives the exact semantics on the states this program reaches. -/
def stopScopeF : Nat → Nat → St → St
  | 0, _, st => st
  | fuel + 1, sid, st =>
    if sid ∈ st.activeIds then
      let st1 := eraseActive sid st
      let st2 := (hooksOf st1 sid).foldl (fun s hh =>
        let s1 : St := { s with fired := s.fired ++ [(sid, hh)] }
        match hh with
        | HookK.user _ => s1
        | HookK.selfRemove k =>
          if registryHas s1.registry k then
            match registryGet s1.registry k with
            | some s2id =>
              let s2 := stopScopeF fuel s2id s1
              { s2 with registry := registryDelete s2.registry k }
            | none => s1
          else s1) st1
      (childrenOf st1 sid).foldl (fun s c => stopScopeF fuel c s) st2
    else st

/-- Body of the self-removing `onScopeDispose` hook of `deep-reactivity.ts`
(and of the user hooks), as executed while its owning scope `sid` is being
stopped: it fires, and when it is a self-remove hook it checks membership of
its key in `childScopes`, stops the currently registered scope and deletes the
entry.  This is definitionally the per-hook step inside `stopScopeF`. -/
def hookStepF (fuel sid : Nat) (s : St) (hh : HookK) : St :=
  let s1 : St := { s with fired := s.fired ++ [(sid, hh)] }
  match hh with
  | HookK.user _ => s1
  | HookK.selfRemove k =>
    if registryHas s1.registry k then
      match registryGet s1.registry k with
      | some s2id =>
        let s2 := stopScopeF fuel s2id s1
        { s2 with registry := registryDelete s2.registry k }
      | none => s1
    else s1

/-- Running all disposal hooks of a scope being stopped, in registration
order (the cleanup phase of `EffectScope.stop`). -/
def stopHooksPhase (fuel sid : Nat) (st : St) : St :=
  (hooksOf st sid).foldl (hookStepF fuel sid) st

/-- Cascading a stop into a list of child scopes (the scopes phase of
`EffectScope.stop`). -/
def stopChildren (fuel : Nat) (cs : List Nat) (st : St) : St :=
  cs.foldl (fun s c => stopScopeF fuel c s) st

/-- Stop a scope with ample fuel for this program's bounded re-entrancy. -/
def stopScope (sid : Nat) (st : St) : St := stopScopeF 8 sid st

/-- What a caller-supplied handler observably does for one key: the disposal
hooks it registers on the scope it runs in, and whether it throws. -/
structure HandlerSpec where
  hookTags : List Nat
  throws : Bool

/-- A handler, as a map from key to observable behaviour. -/
abbrev Handler := Key → HandlerSpec

/-- Run `handler(key)` inside scope `sid` (`scope.run(() => handler(key))`):
the invocation is logged, the handler's `onScopeDispose` registrations attach
to `sid`, and the returned flag says whether the handler threw. -/
def runHandler (h : Handler) (sid : Nat) (k : Key) (st : St) : St × Bool :=
  let sp := h k
  ({ st with
      handlerLog := st.handlerLog ++ [k],
      hooks := st.hooks ++ sp.hookTags.map (fun t => (sid, HookK.user t)) },
    sp.throws)

/-- Current key set of the watched object (`Object.keys(input.value)`). -/
def objKeys (st : St) : List Key := st.inputObj.map Prod.fst

/-! ### The deep-reactivity.ts variant -/

/-- One iteration of the `keysToAdd` loop of `deep-reactivity.ts`: create a
new scope, `childScopes.set(key, newScope)`, then run the handler inside it;
only if the handler returns normally is the self-removing `onScopeDispose`
hook registered.  Returns the state and whether the handler threw. -/
def addStepDeep (h : Handler) (k : Key) (st : St) : St × Bool :=
  let sid := st.nextId
  let st1 : St := { st with
    nextId := sid + 1,
    activeIds := st.activeIds ++ [sid],
    scopeParent := st.scopeParent ++ [(sid, st.topScope)],
    scopeKey := st.scopeKey ++ [(sid, k)],
    registry := registrySet st.registry k sid }
  let hr := runHandler h sid k st1
  if hr.2 then (hr.1, true)
  else ({ hr.1 with hooks := hr.1.hooks ++ [(sid, HookK.selfRemove k)] }, false)

/-- The `for (const key of keysToAdd)` loop of `deep-reactivity.ts`; an
exception thrown by the handler aborts the loop and propagates (the thrown
key is returned). -/
def addLoopDeep (h : Handler) : List Key → St → St × Option Key
  | [], st => (st, none)
  | k :: rest, st =>
    let r := addStepDeep h k st
    if r.2 then (r.1, some k) else addLoopDeep h rest r.1

/-- The key diff of `deep-reactivity.ts`:
`keysToAdd = inputKeys.filter(key => !childScopes.has(key))`. -/
def keysToAddDeep (st : St) : List Key :=
  (objKeys st).filter (fun k => !registryHas st.registry k)

/-- The watch callback of `deep-reactivity.ts`: it only computes `keysToAdd`
and runs the add loop — it contains no removal of disappeared keys. -/
def passDeep (h : Handler) (st : St) : St × Option Key :=
  addLoopDeep h (keysToAddDeep st) st

/-- The disposer returned by the `deep-reactivity.ts` variant:
`() => parentScope.stop()`. -/
def disposeDeep (st : St) : St := stopScope st.topScope st

/-! ### The part_000 (watchEffect) variant -/

/-- One iteration of the `keysToRemove` loop of `part_000`: if the key is
still in `childScopes`, stop its scope and delete the entry. -/
def removeStepEff (k : Key) (st : St) : St :=
  if registryHas st.registry k then
    let st1 := match registryGet st.registry k with
      | some sid => stopScope sid st
      | none => st
    { st1 with registry := registryDelete st1.registry k }
  else st

/-- The `for (const key of keysToRemove)` loop of `part_000`. -/
def removeLoopEff : List Key → St → St
  | [], st => st
  | k :: rest, st => removeLoopEff rest (removeStepEff k st)

/-- One iteration of the `keysToAdd` loop of `part_000`: skip if the key is
already registered, otherwise `childScopes.set(key, effectScope())` and run
the handler inside the new scope (no self-removing hook is registered). -/
def addStepEff (h : Handler) (k : Key) (st : St) : St × Bool :=
  if registryHas st.registry k then (st, false)
  else
    let sid := st.nextId
    let st1 : St := { st with
      nextId := sid + 1,
      activeIds := st.activeIds ++ [sid],
      scopeParent := st.scopeParent ++ [(sid, st.topScope)],
      scopeKey := st.scopeKey ++ [(sid, k)],
      registry := registrySet st.registry k sid }
    runHandler h sid k st1

/-- The `for (const key of keysToAdd)` loop of `part_000`; a handler
exception aborts the loop and propagates. -/
def addLoopEff (h : Handler) : List Key → St → St × Option Key
  | [], st => (st, none)
  | k :: rest, st =>
    let r := addStepEff h k st
    if r.2 then (r.1, some k) else addLoopEff h rest r.1

/-- The added-keys half of the diff of `part_000`:
`inputKeys.filter(key => !runningKeys.includes(key))`, both lists snapshotted
at the start of the pass. -/
def keysToAddEff (st : St) : List Key :=
  (objKeys st).filter (fun k => !((st.registry.map Prod.fst).contains k))

/-- The removed-keys half of the diff of `part_000`:
`runningKeys.filter(key => !inputKeys.includes(key))`. -/
def keysToRemoveEff (st : St) : List Key :=
  (st.registry.map Prod.fst).filter (fun k => !((objKeys st).contains k))

/-- The `watchEffect` body of `part_000`: snapshot `inputKeys` and
`runningKeys`, diff them, run all removals, then all additions. -/
def passEff (h : Handler) (st : St) : St × Option Key :=
  addLoopEff h (keysToAddEff st) (removeLoopEff (keysToRemoveEff st) st)

/-- The value returned by the `part_000` variant: the stop handle of the
`watchEffect` — it cancels the top-level watch and nothing else. -/
def stopEff (st : St) : St := { st with watchActive := false }

/-! ### Wiring: initial state, notifications, scenarios -/

/-- State at the start of a `useScopePerKey` call: the top-level scope
(id 0) is live and owns the top-level watcher, the registry is empty and the
watched ref holds `obj`. -/
def initSt (obj : List (Key × Int)) : St :=
  { inputObj := obj, topScope := 0, nextId := 1, activeIds := [0],
    scopeParent := [], scopeKey := [], hooks := [], registry := [],
    fired := [], handlerLog := [], watchActive := true, watchOwner := some 0 }

/-- A key-set change notification for the deep variant: the callback runs only
while the watcher is alive. -/
def notifyDeep (h : Handler) (st : St) : St × Option Key :=
  if st.watchActive then passDeep h st else (st, none)

/-- A dependency-change notification for the watch-effect variant. -/
def notifyEff (h : Handler) (st : St) : St × Option Key :=
  if st.watchActive then passEff h st else (st, none)

/-- Calling `useScopePerKey` of `deep-reactivity.ts` on a ref holding `obj`:
the watch is `immediate`, so one pass runs synchronously. -/
def useScopePerKeyDeep (h : Handler) (obj : List (Key × Int)) : St × Option Key :=
  notifyDeep h (initSt obj)

/-- Calling `useScopePerKey` of `part_000`: `watchEffect` runs its body
immediately. -/
def useScopePerKeyEff (h : Handler) (obj : List (Key × Int)) : St × Option Key :=
  notifyEff h (initSt obj)

/-- Assign a new object to the watched ref (`input.value = obj`), done by the
reconciler's caller between notifications. -/
def setInput (obj : List (Key × Int)) (st : St) : St := { st with inputObj := obj }

/-- Drive the deep variant through a sequence of ref assignments, each
followed by its synchronous notification; a handler exception stops the run
and is returned. -/
def runSeqDeep (h : Handler) : List (List (Key × Int)) → St → St × Option Key
  | [], st => (st, none)
  | obj :: rest, st =>
    let r := notifyDeep h (setInput obj st)
    match r.2 with
    | some k => (r.1, some k)
    | none => runSeqDeep h rest r.1

/-- Drive the watch-effect variant through a sequence of ref assignments. -/
def runSeqEff (h : Handler) : List (List (Key × Int)) → St → St × Option Key
  | [], st => (st, none)
  | obj :: rest, st =>
    let r := notifyEff h (setInput obj st)
    match r.2 with
    | some k => (r.1, some k)
    | none => runSeqEff h rest r.1

/-- A benign handler that registers one disposal hook (tag 5) and returns. -/
def hBasic : Handler := fun _ => { hookTags := [5], throws := false }

/-- A handler that registers one disposal hook (tag 3) and then throws. -/
def hThrow : Handler := fun _ => { hookTags := [3], throws := true }

/-! ### Intermediate states of one reconciliation pass

The trace of a pass lists the state after every loop iteration, so that
properties claimed to hold "even transiently" can be stated about every
intermediate state of a pass. -/

/-- States after each iteration of the deep variant's add loop (the state in
which a handler threw ends the trace). -/
def addLoopDeepTrace (h : Handler) : List Key → St → List St
  | [], _ => []
  | k :: rest, st =>
    let r := addStepDeep h k st
    if r.2 then [r.1] else r.1 :: addLoopDeepTrace h rest r.1

/-- All intermediate states of one deep-variant watch callback, starting state
included. -/
def passDeepTrace (h : Handler) (st : St) : List St :=
  st :: addLoopDeepTrace h (keysToAddDeep st) st

/-- States after each iteration of the watch-effect variant's remove loop. -/
def removeLoopEffTrace : List Key → St → List St
  | [], _ => []
  | k :: rest, st =>
    let st1 := removeStepEff k st
    st1 :: removeLoopEffTrace rest st1

/-- States after each iteration of the watch-effect variant's add loop. -/
def addLoopEffTrace (h : Handler) : List Key → St → List St
  | [], _ => []
  | k :: rest, st =>
    let r := addStepEff h k st
    if r.2 then [r.1] else r.1 :: addLoopEffTrace h rest r.1

/-- All intermediate states of one watch-effect body: the starting state, the
state after each removal, and the state after each addition (removals all
precede additions, as in the source). -/
def passEffTrace (h : Handler) (st : St) : List St :=
  st :: (removeLoopEffTrace (keysToRemoveEff st) st ++
    addLoopEffTrace h (keysToAddEff st) (removeLoopEff (keysToRemoveEff st) st))

/-! ### State invariants -/

/-- Is a hook a plain caller-registered hook (not the self-removing one)? -/
def hookIsUser : HookK → Bool
  | HookK.user _ => true
  | HookK.selfRemove _ => false

/-- No self-removing hook is registered anywhere (true of all states the
watch-effect variant produces, which never calls `onScopeDispose`). -/
@[reducible] def NoSelfHooks (st : St) : Prop := ∀ p ∈ st.hooks, hookIsUser p.2 = true

/-- Every live scope that was created for a key is the scope currently
registered for that key. -/
@[reducible] def RegOwns (st : St) : Prop :=
  ∀ q ∈ st.scopeKey, q.1 ∈ st.activeIds → registryGet st.registry q.2 = some q.1

/-- Scope ids recorded in the creation log are below the fresh-id counter. -/
@[reducible] def TagsFresh (st : St) : Prop := ∀ q ∈ st.scopeKey, q.1 < st.nextId

/-- Live scope ids are below the fresh-id counter. -/
@[reducible] def ActiveFresh (st : St) : Prop := ∀ a ∈ st.activeIds, a < st.nextId

/-- Every scope ever created by a pass is a child of the top-level scope. -/
@[reducible] def FlatParents (st : St) : Prop := ∀ q ∈ st.scopeParent, q.2 = st.topScope

/-- No registered scope is the top-level scope itself. -/
@[reducible] def RegNotTop (st : St) : Prop := ∀ p ∈ st.registry, p.2 ≠ st.topScope

/-- Every registered scope is live. -/
@[reducible] def RegActive (st : St) : Prop := ∀ p ∈ st.registry, p.2 ∈ st.activeIds

/-- The uniqueness invariant I2: no key has two live scopes, i.e. any two live
scopes created for the same key are the same scope. -/
@[reducible] def atMostOneLive (st : St) : Prop :=
  ∀ p ∈ st.scopeKey, ∀ q ∈ st.scopeKey,
    p.1 ∈ st.activeIds → q.1 ∈ st.activeIds → p.2 = q.2 → p.1 = q.1

/-- In the deep variant, every registered scope carries its self-removing
hook as the last of its hooks, all earlier ones being caller hooks. -/
@[reducible] def SelfHookLast (st : St) : Prop :=
  ∀ p ∈ st.registry,
    hooksOf st p.2 ≠ [] ∧
    (hooksOf st p.2).getLast? = some (HookK.selfRemove p.1) ∧
    ∀ hh ∈ (hooksOf st p.2).dropLast, hookIsUser hh = true

/-- Core well-formedness of a reconciler state, preserved by every loop
iteration of both variants: live created scopes are the registered ones,
registered scopes are live, ids recorded anywhere are below the fresh-id
counter, the live list and both registry projections are duplicate-free, and
no registered scope is the top scope. -/
structure InvCore (st : St) : Prop where
  regOwns : RegOwns st
  regActive : RegActive st
  tagsFresh : TagsFresh st
  activeFresh : ActiveFresh st
  topFresh : st.topScope < st.nextId
  activeNodup : st.activeIds.Nodup
  regNotTop : RegNotTop st
  keysNodup : (st.registry.map Prod.fst).Nodup
  valsNodup : (st.registry.map Prod.snd).Nodup

/-- Well-formedness of a watch-effect-variant state: the core invariant, no
self-removing hooks anywhere (that variant registers none) and a flat scope
tree. -/
structure InvEff (st : St) : Prop where
  core : InvCore st
  noSelf : NoSelfHooks st
  flat : FlatParents st

/-- Well-formedness of a running deep-variant state in which every handler
completed normally: the top scope is live and owns the watcher and no hooks,
every created scope is a child of the top scope and registered, registered
scopes are live, distinct, not the top scope, found under their key, and carry
their self-removing hook last. -/
@[reducible] def WFDeep (st : St) : Prop :=
  st.topScope ∈ st.activeIds ∧
  st.watchOwner = some st.topScope ∧
  (∀ p ∈ st.hooks, p.1 ≠ st.topScope) ∧
  FlatParents st ∧
  (st.scopeParent.map Prod.fst).Nodup ∧
  (∀ q ∈ st.scopeParent, ∃ p ∈ st.registry, p.2 = q.1) ∧
  (∀ p ∈ st.registry, (p.2, st.topScope) ∈ st.scopeParent) ∧
  RegActive st ∧
  RegNotTop st ∧
  (∀ p ∈ st.registry, registryGet st.registry p.1 = some p.2) ∧
  SelfHookLast st ∧
  (st.registry.map Prod.snd).Nodup ∧
  (st.registry.map Prod.fst).Nodup ∧
  st.activeIds.Nodup

/-! ### Concrete scenario states -/

/-- Deep variant on `{a: 1}`, then the ref changes to `{b: 2}` and the sync
watch callback runs (spec Scenario C). -/
def c1run : St :=
  (notifyDeep hBasic (setInput [("b", 2)] (useScopePerKeyDeep hBasic [("a", 1)]).1)).1

/-- Deep variant on `{a: 1}`, then `{}`, then `{a: 1}` again (spec Scenario
E: removal and re-addition in separate notifications). -/
def c4run : St :=
  (runSeqDeep hBasic [[], [("a", 1)]] (useScopePerKeyDeep hBasic [("a", 1)]).1).1

/-- Watch-effect variant on `{a: 1}`, then the returned stop handle is
called. -/
def c2run : St := stopEff (useScopePerKeyEff hBasic [("a", 1)]).1

/-- A state in which key `"a"` has been reassigned: scope 1 was created for
`"a"`, the key reappeared and scope 2 is the one now registered for it; both
carry their self-removing hooks, and scope 1 is about to be stopped. -/
def c5st : St :=
  { inputObj := [("a", 1)], topScope := 0, nextId := 3, activeIds := [0, 1, 2],
    scopeParent := [(1, 0), (2, 0)], scopeKey := [(1, "a"), (2, "a")],
    hooks := [(1, HookK.selfRemove "a"), (2, HookK.selfRemove "a")],
    registry := [("a", 2)], fired := [], handlerLog := ["a", "a"],
    watchActive := true, watchOwner := some 0 }

/-- Stopping the stale scope 1 in `c5st`, which fires its self-removing
disposal hook for `"a"`. -/
def c5run : St := stopScope 1 c5st

/-- What stopping scopes can never do: it reads but never writes the watched
ref, the logs of handler calls, the hook registrations, the scope-creation
records and the fresh-id counter; it only shrinks the live-scope list and the
registry and only appends to the fired log. -/
def StopPres (a b : St) : Prop :=
  b.inputObj = a.inputObj ∧
  b.topScope = a.topScope ∧
  b.nextId = a.nextId ∧
  b.scopeParent = a.scopeParent ∧
  b.scopeKey = a.scopeKey ∧
  b.hooks = a.hooks ∧
  b.handlerLog = a.handlerLog ∧
  b.watchOwner = a.watchOwner ∧
  b.activeIds.Sublist a.activeIds ∧
  b.registry.Sublist a.registry ∧
  a.fired <+: b.fired

/-! ## Theorems -/

/-- C1: the claim fails on `deep-reactivity.ts`.  After the watched object
changes from `{a: 1}` to `{b: 2}` and the sync watch callback settles, the
registry still holds key `"a"` next to `"b"` (so it differs from the object's
key set `["b"]`), no disposal hook of `"a"`'s scope has fired, and `"a"`'s
scope (id 1) is still live: the callback has no removal branch, contradicting
the claim and the function's own doc comment. -/
theorem c1_removed_key_never_reconciled :
    c1run.registry.map Prod.fst = ["a", "b"] ∧
    objKeys c1run = ["b"] ∧
    c1run.fired = [] ∧
    1 ∈ c1run.activeIds := by decide

/-- C4: the claim fails on `deep-reactivity.ts`.  After `{a: 1}` → `{}` →
`{a: 1}` in separate notifications, key `"a"` is still mapped to its original
scope (id 1), that scope was never disposed (nothing fired), and the handler
ran only once: the old scope is kept across the gap instead of being replaced
by a brand-new one. -/
theorem c4_scope_kept_across_gap :
    registryGet c4run.registry "a" = some 1 ∧
    c4run.fired = [] ∧
    c4run.handlerLog = ["a"] ∧
    1 ∈ c4run.activeIds ∧
    objKeys c4run = ["a"] := by decide

/-- C2 counterexample: for the `part_000` variant the claim is false at the
concrete input `{a: 1}`.  Calling the returned stop handle cancels the watch
but disposes nothing: key `"a"` is still registered, its scope (id 1) is
still live, and no disposal hook has fired — the registry is neither disposed
nor cleared. -/
theorem c2_stop_handle_disposes_nothing :
    c2run.watchActive = false ∧
    c2run.registry = [("a", 1)] ∧
    1 ∈ c2run.activeIds ∧
    c2run.fired = [] := by decide

/-- C5 counterexample: the self-removing hook of `deep-reactivity.ts` checks
only `childScopes.has(key)`, not ownership.  In `c5st` key `"a"` is registered
to the newer scope 2 while the stale scope 1 (also created for `"a"`) is
stopped; the stale hook finds the key present, stops the newer scope (its
hooks fire) and deletes its entry — it is not a no-op and the newer scope is
not left untouched, contradicting the claim. -/
theorem c5_stale_hook_destroys_newer_scope :
    2 ∉ c5run.activeIds ∧
    c5run.registry = [] ∧
    (2, HookK.selfRemove "a") ∈ c5run.fired := by decide

/-! ### Generic helpers -/

theorem foldl_pres {α : Type} {P : St → Prop} (f : St → α → St)
    (hf : ∀ (s : St) (a : α), P s → P (f s a)) :
    ∀ (l : List α) (s : St), P s → P (l.foldl f s)
  | [], _, hs => hs
  | a :: rest, s, hs => foldl_pres f hf rest (f s a) (hf s a hs)

theorem registryDelete_sublist (reg : List (Key × Nat)) (k : Key) :
    (registryDelete reg k).Sublist reg := by
  induction reg with
  | nil => exact List.Sublist.refl _
  | cons p rest ih =>
    rw [registryDelete]
    by_cases h : p.1 = k
    · rw [if_pos h]; exact List.sublist_cons_self p rest
    · rw [if_neg h]; exact ih.cons₂ p

/-! ### What stopping a scope can and cannot change -/

theorem stopScopeF_zero (sid : Nat) (st : St) : stopScopeF 0 sid st = st := rfl

/-- Unfolding: one stop marks the scope inert, runs its hooks, then cascades
into its children; stopping an inert scope is a no-op. -/
theorem stopScopeF_succ (fuel sid : Nat) (st : St) :
    stopScopeF (fuel + 1) sid st =
      if sid ∈ st.activeIds then
        stopChildren fuel (childrenOf (eraseActive sid st) sid)
          (stopHooksPhase fuel sid (eraseActive sid st))
      else st := rfl

theorem childrenOf_eraseActive (sid s2 : Nat) (st : St) :
    childrenOf (eraseActive sid st) s2 = childrenOf st s2 := rfl

theorem stopScopeF_not_active (fuel sid : Nat) (st : St) (h : sid ∉ st.activeIds) :
    stopScopeF fuel sid st = st := by
  cases fuel with
  | zero => rfl
  | succ fuel => rw [stopScopeF_succ, if_neg h]

theorem stopPres_refl (a : St) : StopPres a a :=
  ⟨rfl, rfl, rfl, rfl, rfl, rfl, rfl, rfl, List.Sublist.refl _, List.Sublist.refl _,
    List.prefix_refl _⟩

theorem stopPres_trans {a b c : St} (h1 : StopPres a b) (h2 : StopPres b c) : StopPres a c := by
  obtain ⟨e1, e2, e3, e4, e5, e6, e7, e8, s1, s2, p1⟩ := h1
  obtain ⟨f1, f2, f3, f4, f5, f6, f7, f8, t1, t2, q1⟩ := h2
  exact ⟨f1.trans e1, f2.trans e2, f3.trans e3, f4.trans e4, f5.trans e5, f6.trans e6,
    f7.trans e7, f8.trans e8, t1.trans s1, t2.trans s2, p1.trans q1⟩

theorem stopPres_hookStepF (fuel sid : Nat)
    (ih : ∀ (sid2 : Nat) (st2 : St), StopPres st2 (stopScopeF fuel sid2 st2))
    (s : St) (hh : HookK) : StopPres s (hookStepF fuel sid s hh) := by
  have h1 : StopPres s { s with fired := s.fired ++ [(sid, hh)] } :=
    ⟨rfl, rfl, rfl, rfl, rfl, rfl, rfl, rfl, List.Sublist.refl _, List.Sublist.refl _,
      List.prefix_append _ _⟩
  cases hh with
  | user tag => exact h1
  | selfRemove k =>
    rw [hookStepF]
    dsimp only
    cases hget : registryGet s.registry k with
    | none =>
      simp only [registryHas, hget]
      exact h1
    | some s2id =>
      simp only [registryHas, hget]
      refine stopPres_trans (stopPres_trans h1 (ih s2id _)) ?_
      exact ⟨rfl, rfl, rfl, rfl, rfl, rfl, rfl, rfl, List.Sublist.refl _,
        registryDelete_sublist _ _, List.prefix_refl _⟩

theorem stopPres_stopScopeF : ∀ (fuel sid : Nat) (st : St), StopPres st (stopScopeF fuel sid st) := by
  intro fuel
  induction fuel with
  | zero => intro sid st; exact stopPres_refl st
  | succ fuel ih =>
    intro sid st
    rw [stopScopeF_succ]
    by_cases h : sid ∈ st.activeIds
    · rw [if_pos h]
      have h0 : StopPres st (eraseActive sid st) :=
        ⟨rfl, rfl, rfl, rfl, rfl, rfl, rfl, rfl, List.erase_sublist _ _, List.Sublist.refl _,
          List.prefix_refl _⟩
      have h1 : StopPres st (stopHooksPhase fuel sid (eraseActive sid st)) := by
        rw [stopHooksPhase]
        exact foldl_pres _
          (fun s a hs => stopPres_trans hs (stopPres_hookStepF fuel sid ih s a)) _ _ h0
      rw [stopChildren]
      exact foldl_pres _ (fun s a hs => stopPres_trans hs (ih a s)) _ _ h1
    · rw [if_neg h]; exact stopPres_refl st

/-- After stopping a live scope, the live-scope list is contained in the
original one with the stopped scope erased. -/
theorem stopScopeF_active_sub (fuel sid : Nat) (st : St) (h : sid ∈ st.activeIds) :
    (stopScopeF (fuel + 1) sid st).activeIds.Sublist (st.activeIds.erase sid) := by
  rw [stopScopeF_succ, if_pos h]
  have h0 : StopPres (eraseActive sid st) (stopHooksPhase fuel sid (eraseActive sid st)) := by
    rw [stopHooksPhase]
    exact foldl_pres _
      (fun s a hs =>
        stopPres_trans hs (stopPres_hookStepF fuel sid (stopPres_stopScopeF fuel) s a))
      _ _ (stopPres_refl _)
  have h1 : StopPres (eraseActive sid st)
      (stopChildren fuel (childrenOf (eraseActive sid st) sid)
        (stopHooksPhase fuel sid (eraseActive sid st))) := by
    refine stopPres_trans h0 ?_
    rw [stopChildren]
    exact foldl_pres _ (fun s a hs => stopPres_trans hs (stopPres_stopScopeF fuel a s)) _ _
      (stopPres_refl _)
  obtain ⟨-, -, -, -, -, -, -, -, hact, -, -⟩ := h1
  exact hact

/-! ### C7: the returned disposal function is idempotent -/

/-- C7: calling either variant's returned disposal function a second time is
a no-op.  For `deep-reactivity.ts` the disposer is `() => parentScope.stop()`
and a stop of the now-inert parent scope returns immediately, so the second
call changes nothing (in particular no disposal hook fires again and no error
is raised — the model is a total function); for `part_000` the watch-stop
handle is trivially idempotent. -/
theorem c7_returned_disposer_idempotent (st : St) (hnd : st.activeIds.Nodup) :
    disposeDeep (disposeDeep st) = disposeDeep st ∧ stopEff (stopEff st) = stopEff st := by
  constructor
  · by_cases h : st.topScope ∈ st.activeIds
    · have hsub : (disposeDeep st).activeIds.Sublist (st.activeIds.erase st.topScope) :=
        stopScopeF_active_sub 7 st.topScope st h
      have hnot : st.topScope ∉ (disposeDeep st).activeIds := by
        intro hmem
        have hm2 := hsub.subset hmem
        rw [hnd.mem_erase_iff] at hm2
        exact hm2.1 rfl
      have ht : (disposeDeep st).topScope = st.topScope := by
        obtain ⟨-, h2, -⟩ := stopPres_stopScopeF 8 st.topScope st
        exact h2
      show stopScopeF 8 (disposeDeep st).topScope (disposeDeep st) = disposeDeep st
      rw [ht]
      exact stopScopeF_not_active 8 st.topScope (disposeDeep st) hnot
    · have e : disposeDeep st = st := stopScopeF_not_active 8 st.topScope st h
      rw [e]
      exact e
  · rfl

/-- Witness for C7 at the state reached by the deep variant on `{a: 1}`. -/
theorem c7_returned_disposer_idempotent_witness :
    (useScopePerKeyDeep hBasic [("a", 1)]).1.activeIds.Nodup ∧
    (disposeDeep (disposeDeep (useScopePerKeyDeep hBasic [("a", 1)]).1) =
        disposeDeep (useScopePerKeyDeep hBasic [("a", 1)]).1 ∧
      stopEff (stopEff (useScopePerKeyDeep hBasic [("a", 1)]).1) =
        stopEff (useScopePerKeyDeep hBasic [("a", 1)]).1) :=
  ⟨by decide, c7_returned_disposer_idempotent _ (by decide)⟩

/-! ### C10: the reconciler never writes the watched ref -/

theorem addStepDeep_inputObj (h : Handler) (k : Key) (st : St) :
    (addStepDeep h k st).1.inputObj = st.inputObj := by
  rw [addStepDeep]
  dsimp only [runHandler]
  split <;> rfl

theorem addLoopDeep_inputObj (h : Handler) : ∀ (ks : List Key) (st : St),
    (addLoopDeep h ks st).1.inputObj = st.inputObj
  | [], _ => rfl
  | k :: rest, st => by
    rw [addLoopDeep]
    by_cases hthrew : (addStepDeep h k st).2 = true
    · rw [if_pos hthrew]
      exact addStepDeep_inputObj h k st
    · rw [if_neg hthrew, addLoopDeep_inputObj h rest _]
      exact addStepDeep_inputObj h k st

theorem addStepEff_inputObj (h : Handler) (k : Key) (st : St) :
    (addStepEff h k st).1.inputObj = st.inputObj := by
  rw [addStepEff]
  split <;> rfl

theorem addLoopEff_inputObj (h : Handler) : ∀ (ks : List Key) (st : St),
    (addLoopEff h ks st).1.inputObj = st.inputObj
  | [], _ => rfl
  | k :: rest, st => by
    rw [addLoopEff]
    by_cases hthrew : (addStepEff h k st).2 = true
    · rw [if_pos hthrew]
      exact addStepEff_inputObj h k st
    · rw [if_neg hthrew, addLoopEff_inputObj h rest _]
      exact addStepEff_inputObj h k st

theorem removeStepEff_inputObj (k : Key) (st : St) :
    (removeStepEff k st).inputObj = st.inputObj := by
  rw [removeStepEff]
  split
  · cases hget : registryGet st.registry k with
    | none => rfl
    | some sid =>
      obtain ⟨h1, -⟩ := stopPres_stopScopeF 8 sid st
      exact h1
  · rfl

theorem removeLoopEff_inputObj : ∀ (ks : List Key) (st : St),
    (removeLoopEff ks st).inputObj = st.inputObj
  | [], _ => rfl
  | k :: rest, st => by
    rw [removeLoopEff, removeLoopEff_inputObj rest _, removeStepEff_inputObj]

/-- C10: neither variant's reconciliation pass nor either returned disposal
function ever writes the watched ref: whatever the handler is, the value of
the watched object is the same before and after a pass, after the
deep-variant parent-scope disposal, and after the watch-effect stop handle
(handlers are modelled by their observable effects — hook registration,
logging, throwing — so this states that the reconciler's own bookkeeping
performs no write). -/
theorem c10_watched_object_never_written (h : Handler) (st : St) :
    (passDeep h st).1.inputObj = st.inputObj ∧
    (passEff h st).1.inputObj = st.inputObj ∧
    (disposeDeep st).inputObj = st.inputObj ∧
    (stopEff st).inputObj = st.inputObj := by
  refine ⟨addLoopDeep_inputObj h _ _, ?_, ?_, rfl⟩
  · rw [passEff, addLoopEff_inputObj, removeLoopEff_inputObj]
  · obtain ⟨h1, -⟩ := stopPres_stopScopeF 8 st.topScope st
    exact h1

/-! ### Association-list facts about the childScopes map -/

theorem registryGet_set_self (reg : List (Key × Nat)) (k : Key) (v : Nat) :
    registryGet (registrySet reg k v) k = some v := by
  induction reg with
  | nil => simp [registrySet, registryGet]
  | cons p rest ih =>
    rw [registrySet]
    by_cases h : p.1 = k
    · rw [if_pos h, registryGet, if_pos rfl]
    · rw [if_neg h, registryGet, if_neg h, ih]

theorem registryGet_set_ne (reg : List (Key × Nat)) (k k' : Key) (v : Nat) (h : k' ≠ k) :
    registryGet (registrySet reg k v) k' = registryGet reg k' := by
  induction reg with
  | nil =>
    simp only [registrySet, registryGet]
    rw [if_neg (fun e => h e.symm)]
  | cons p rest ih =>
    rw [registrySet]
    by_cases hp : p.1 = k
    · rw [if_pos hp, registryGet, registryGet, if_neg (fun e => h e.symm),
        if_neg (fun e => h (hp ▸ e).symm)]
    · rw [if_neg hp, registryGet, registryGet]
      by_cases hp2 : p.1 = k'
      · rw [if_pos hp2, if_pos hp2]
      · rw [if_neg hp2, if_neg hp2, ih]

theorem registryGet_mem (reg : List (Key × Nat)) (k : Key) (v : Nat)
    (h : registryGet reg k = some v) : (k, v) ∈ reg := by
  induction reg with
  | nil => exact absurd h (by rw [registryGet]; exact Option.noConfusion)
  | cons p rest ih =>
    rw [registryGet] at h
    by_cases hp : p.1 = k
    · rw [if_pos hp] at h
      have hp2 : p = (k, v) := Prod.ext hp (Option.some.inj h)
      rw [hp2]
      exact List.mem_cons_self _ _
    · rw [if_neg hp] at h
      exact List.mem_cons_of_mem p (ih h)

theorem registryGet_none_iff (reg : List (Key × Nat)) (k : Key) :
    registryGet reg k = none ↔ k ∉ reg.map Prod.fst := by
  induction reg with
  | nil => simp [registryGet]
  | cons p rest ih =>
    rw [registryGet]
    by_cases hp : p.1 = k
    · rw [if_pos hp]
      simp [hp]
    · rw [if_neg hp]
      simp only [List.map_cons, List.mem_cons, ih]
      constructor
      · intro hk hor
        rcases hor with he | hm
        · exact hp he.symm
        · exact hk hm
      · intro hk hm
        exact hk (Or.inr hm)

theorem registryHas_false_iff (reg : List (Key × Nat)) (k : Key) :
    registryHas reg k = false ↔ k ∉ reg.map Prod.fst := by
  constructor
  · intro h
    rw [registryHas] at h
    have hn : registryGet reg k = none := by
      cases hget : registryGet reg k with
      | none => rfl
      | some v => rw [hget] at h; simp at h
    exact (registryGet_none_iff reg k).mp hn
  · intro h
    rw [registryHas, (registryGet_none_iff reg k).mpr h]
    rfl

theorem registryHas_true_iff (reg : List (Key × Nat)) (k : Key) :
    registryHas reg k = true ↔ k ∈ reg.map Prod.fst := by
  constructor
  · intro h
    by_contra hm
    rw [← registryHas_false_iff] at hm
    rw [h] at hm
    exact Bool.noConfusion hm
  · intro h
    by_contra hm
    rw [Bool.not_eq_true, registryHas_false_iff] at hm
    exact hm h

theorem registryGet_delete_ne (reg : List (Key × Nat)) (k k' : Key) (h : k' ≠ k) :
    registryGet (registryDelete reg k) k' = registryGet reg k' := by
  induction reg with
  | nil => rw [registryDelete]
  | cons p rest ih =>
    rw [registryDelete]
    by_cases hp : p.1 = k
    · rw [if_pos hp, registryGet, if_neg (fun e => h (hp ▸ e).symm)]
    · rw [if_neg hp, registryGet, registryGet]
      by_cases hp2 : p.1 = k'
      · rw [if_pos hp2, if_pos hp2]
      · rw [if_neg hp2, if_neg hp2, ih]

theorem registryDelete_eq_filter (reg : List (Key × Nat)) (k : Key)
    (h : (reg.map Prod.fst).Nodup) :
    registryDelete reg k = reg.filter (fun p => !(p.1 == k)) := by
  induction reg with
  | nil => rw [registryDelete, List.filter_nil]
  | cons p rest ih =>
    rw [List.map_cons, List.nodup_cons] at h
    rw [registryDelete, List.filter_cons]
    by_cases hp : p.1 = k
    · rw [if_pos hp]
      have hcond : (!(p.1 == k)) = false := by
        rw [beq_iff_eq.mpr hp, Bool.not_true]
      rw [hcond, if_neg Bool.false_ne_true]
      symm
      apply List.filter_eq_self.mpr
      intro q hq
      have hq1 : (q.1 == k) = false := by
        rw [beq_eq_false_iff_ne]
        intro e
        apply h.1
        rw [hp, ← e]
        exact List.mem_map_of_mem Prod.fst hq
      rw [hq1, Bool.not_false]
    · have hcond : (!(p.1 == k)) = true := by
        rw [beq_eq_false_iff_ne.mpr hp, Bool.not_false]
      rw [if_neg hp, hcond, if_pos rfl, ih h.2]

theorem registryGet_delete_self (reg : List (Key × Nat)) (k : Key)
    (h : (reg.map Prod.fst).Nodup) :
    registryGet (registryDelete reg k) k = none := by
  rw [registryDelete_eq_filter reg k h, registryGet_none_iff]
  intro hm
  obtain ⟨q, hq, he⟩ := List.mem_map.mp hm
  have h2 : q.1 ≠ k := by simpa using List.of_mem_filter hq
  exact h2 he

/-! ### Hook bookkeeping of a freshly created scope -/

theorem hooks_filter_fresh {l : List (Nat × HookK)} {sid : Nat}
    (h : sid ∉ l.map Prod.fst) : l.filter (fun p => p.1 == sid) = [] := by
  induction l with
  | nil => rfl
  | cons p rest ih =>
    rw [List.map_cons, List.mem_cons] at h
    push_neg at h
    rw [List.filter_cons]
    have hc : (p.1 == sid) = false := beq_eq_false_iff_ne.mpr (fun e => h.1 e.symm)
    rw [hc, if_neg Bool.false_ne_true]
    exact ih h.2

theorem hooks_filter_own (sid : Nat) (tags : List Nat) :
    ((tags.map (fun t => (sid, HookK.user t))).filter (fun p => p.1 == sid)).map Prod.snd
      = tags.map HookK.user := by
  induction tags with
  | nil => rfl
  | cons t rest ih =>
    rw [List.map_cons, List.filter_cons]
    rw [show (((sid, HookK.user t).1 == sid)) = true from beq_self_eq_true sid]
    rw [if_pos rfl, List.map_cons, ih]
    rfl

/-! ### C6: a throwing handler propagates but the key stays registered -/

/-- C6: when the handler throws for a key, in both variants the exception
propagates to the caller of the reconciliation pass (the add loop aborts and
reports the thrown key), the handler is not retried (exactly one new log
entry for it), and since `childScopes.set` precedes the handler run, the key
is still registered to its freshly created live scope, which can therefore be
disposed later. -/
theorem c6_handler_throw_propagates_scope_registered (h : Handler) (k : Key)
    (rest : List Key) (st : St)
    (hthrow : (h k).throws = true)
    (hhas : registryHas st.registry k = false) :
    ((addLoopDeep h (k :: rest) st).2 = some k ∧
      registryGet (addLoopDeep h (k :: rest) st).1.registry k = some st.nextId ∧
      st.nextId ∈ (addLoopDeep h (k :: rest) st).1.activeIds ∧
      (addLoopDeep h (k :: rest) st).1.handlerLog = st.handlerLog ++ [k]) ∧
    ((addLoopEff h (k :: rest) st).2 = some k ∧
      registryGet (addLoopEff h (k :: rest) st).1.registry k = some st.nextId ∧
      st.nextId ∈ (addLoopEff h (k :: rest) st).1.activeIds ∧
      (addLoopEff h (k :: rest) st).1.handlerLog = st.handlerLog ++ [k]) := by
  constructor
  · simp [addLoopDeep, addStepDeep, runHandler, hthrow, registryGet_set_self]
  · simp [addLoopEff, addStepEff, runHandler, hthrow, hhas, registryGet_set_self]

/-- Witness for C6 with a throwing handler on a fresh reconciler state. -/
theorem c6_handler_throw_propagates_scope_registered_witness :
    ((hThrow "a").throws = true ∧ registryHas (initSt []).registry "a" = false) ∧
    (((addLoopDeep hThrow ["a"] (initSt [])).2 = some "a" ∧
        registryGet (addLoopDeep hThrow ["a"] (initSt [])).1.registry "a"
          = some (initSt []).nextId ∧
        (initSt []).nextId ∈ (addLoopDeep hThrow ["a"] (initSt [])).1.activeIds ∧
        (addLoopDeep hThrow ["a"] (initSt [])).1.handlerLog
          = (initSt []).handlerLog ++ ["a"]) ∧
      ((addLoopEff hThrow ["a"] (initSt [])).2 = some "a" ∧
        registryGet (addLoopEff hThrow ["a"] (initSt [])).1.registry "a"
          = some (initSt []).nextId ∧
        (initSt []).nextId ∈ (addLoopEff hThrow ["a"] (initSt [])).1.activeIds ∧
        (addLoopEff hThrow ["a"] (initSt [])).1.handlerLog
          = (initSt []).handlerLog ++ ["a"])) :=
  ⟨⟨rfl, rfl⟩,
    c6_handler_throw_propagates_scope_registered hThrow "a" [] (initSt []) rfl rfl⟩

/-! ### C9: the self-removing hook exists only after a normal handler run -/

/-- C9: in `deep-reactivity.ts` the `onScopeDispose` registration follows
`handler(key)` inside `newScope.run`, so after one add-loop iteration the new
scope's hook list is the handler's own hooks followed by the self-removing
hook exactly when the handler returned normally; when it threw, the scope is
registered (under its key) but carries no self-removing hook, so only the
parent-scope cascade can tear it down. -/
theorem c9_self_hook_only_after_normal_return (h : Handler) (k : Key) (st : St)
    (hfresh : st.nextId ∉ st.hooks.map Prod.fst) :
    hooksOf (addStepDeep h k st).1 st.nextId =
      (h k).hookTags.map HookK.user ++
        (if (h k).throws = true then [] else [HookK.selfRemove k]) ∧
    registryGet (addStepDeep h k st).1.registry k = some st.nextId ∧
    (addStepDeep h k st).2 = (h k).throws := by
  by_cases hth : (h k).throws = true
  · rw [hth]
    simp [addStepDeep, runHandler, hth, hooksOf, List.filter_append,
      hooks_filter_fresh hfresh, hooks_filter_own, registryGet_set_self]
  · rw [if_neg hth]
    have hth2 : (h k).throws = false := Bool.not_eq_true _ |>.mp hth
    simp [addStepDeep, runHandler, hth2, hooksOf, List.filter_append,
      hooks_filter_fresh hfresh, hooks_filter_own, registryGet_set_self,
      beq_self_eq_true]

/-- Witness for C9: one key added with a throwing handler from a fresh
state. -/
theorem c9_self_hook_only_after_normal_return_witness :
    ((initSt []).nextId ∉ (initSt []).hooks.map Prod.fst) ∧
    (hooksOf (addStepDeep hThrow "a" (initSt [])).1 (initSt []).nextId =
        (hThrow "a").hookTags.map HookK.user ++
          (if (hThrow "a").throws = true then [] else [HookK.selfRemove "a"]) ∧
      registryGet (addStepDeep hThrow "a" (initSt [])).1.registry "a"
        = some (initSt []).nextId ∧
      (addStepDeep hThrow "a" (initSt [])).2 = (hThrow "a").throws) :=
  ⟨by decide, c9_self_hook_only_after_normal_return hThrow "a" (initSt []) (by decide)⟩

/-! ### C8: a pass over an unchanged key set is a no-op -/

/-- C8: when the key set read by a pass equals (as a set) the keys already in
the registry, both diffs are empty and the pass returns the state unchanged:
no scope is created or disposed, no handler runs, the registry is untouched
(stated as full state equality). -/
theorem c8_pass_noop_on_unchanged_keys (h : Handler) (st : St)
    (h1 : ∀ k ∈ objKeys st, k ∈ st.registry.map Prod.fst)
    (h2 : ∀ k ∈ st.registry.map Prod.fst, k ∈ objKeys st) :
    passEff h st = (st, none) ∧ passDeep h st = (st, none) := by
  have hrem : keysToRemoveEff st = [] := by
    rw [keysToRemoveEff]
    apply List.filter_eq_nil_iff.mpr
    intro k hk
    have hc : (objKeys st).contains k = true := List.elem_eq_true_of_mem (h2 k hk)
    simp only [hc, Bool.not_true]
    exact Bool.false_ne_true
  have haddE : keysToAddEff st = [] := by
    rw [keysToAddEff]
    apply List.filter_eq_nil_iff.mpr
    intro k hk
    have hc : (st.registry.map Prod.fst).contains k = true :=
      List.elem_eq_true_of_mem (h1 k hk)
    simp only [hc, Bool.not_true]
    exact Bool.false_ne_true
  have haddD : keysToAddDeep st = [] := by
    rw [keysToAddDeep]
    apply List.filter_eq_nil_iff.mpr
    intro k hk
    have hc : registryHas st.registry k = true := (registryHas_true_iff _ _).mpr (h1 k hk)
    simp only [hc, Bool.not_true]
    exact Bool.false_ne_true
  constructor
  · rw [passEff, hrem, haddE]
    rfl
  · rw [passDeep, haddD]
    rfl

/-- Witness for C8 at the state the watch-effect variant reaches on
`{a: 1}`. -/
theorem c8_pass_noop_on_unchanged_keys_witness :
    ((∀ k ∈ objKeys (useScopePerKeyEff hBasic [("a", 1)]).1,
        k ∈ (useScopePerKeyEff hBasic [("a", 1)]).1.registry.map Prod.fst) ∧
      (∀ k ∈ (useScopePerKeyEff hBasic [("a", 1)]).1.registry.map Prod.fst,
        k ∈ objKeys (useScopePerKeyEff hBasic [("a", 1)]).1)) ∧
    (passEff hBasic (useScopePerKeyEff hBasic [("a", 1)]).1
        = ((useScopePerKeyEff hBasic [("a", 1)]).1, none) ∧
      passDeep hBasic (useScopePerKeyEff hBasic [("a", 1)]).1
        = ((useScopePerKeyEff hBasic [("a", 1)]).1, none)) :=
  ⟨⟨by decide, by decide⟩,
    c8_pass_noop_on_unchanged_keys hBasic _ (by decide) (by decide)⟩

/-! ### C5 amended: the hook guard is membership, not ownership -/

/-- C5 amended: the self-removing disposal hook checks only membership of its
key in `childScopes` before acting.  When the key is absent the hook does
nothing (only its firing is logged); when the key is present the hook stops
whichever scope is currently registered for the key — also a newer scope it
does not own — and deletes that entry. -/
theorem c5_hook_guard_is_membership_only (fuel sid : Nat) (k : Key) (st : St)
    (hnodupA : st.activeIds.Nodup)
    (hnodupR : (st.registry.map Prod.fst).Nodup) :
    (registryHas st.registry k = false →
      hookStepF fuel sid st (HookK.selfRemove k)
        = { st with fired := st.fired ++ [(sid, HookK.selfRemove k)] }) ∧
    (∀ s2 : Nat, registryGet st.registry k = some s2 → s2 ∈ st.activeIds →
      s2 ∉ (hookStepF (fuel + 1) sid st (HookK.selfRemove k)).activeIds ∧
      registryGet (hookStepF (fuel + 1) sid st (HookK.selfRemove k)).registry k = none) := by
  constructor
  · intro hhas
    rw [hookStepF]
    dsimp only
    rw [if_neg (by rw [hhas]; exact Bool.false_ne_true)]
  · intro s2 hget hact
    rw [hookStepF]
    dsimp only
    simp only [registryHas, hget]
    constructor
    · intro hmem
      have hsub := (stopScopeF_active_sub fuel s2
        { st with fired := st.fired ++ [(sid, HookK.selfRemove k)] } hact).subset hmem
      rw [hnodupA.mem_erase_iff] at hsub
      exact hsub.1 rfl
    · have hreg : (stopScopeF (fuel + 1) s2
          { st with fired := st.fired ++ [(sid, HookK.selfRemove k)] }).registry.Sublist
          st.registry := by
        obtain ⟨-, -, -, -, -, -, -, -, -, hr, -⟩ := stopPres_stopScopeF (fuel + 1) s2
          { st with fired := st.fired ++ [(sid, HookK.selfRemove k)] }
        exact hr
      exact registryGet_delete_self _ k (hnodupR.sublist (hreg.map Prod.fst))

/-- Witness for the amended C5 at the reassigned-key state `c5st`. -/
theorem c5_hook_guard_is_membership_only_witness :
    (c5st.activeIds.Nodup ∧ (c5st.registry.map Prod.fst).Nodup) ∧
    ((registryHas c5st.registry "a" = false →
        hookStepF 7 1 c5st (HookK.selfRemove "a")
          = { c5st with fired := c5st.fired ++ [(1, HookK.selfRemove "a")] }) ∧
      (∀ s2 : Nat, registryGet c5st.registry "a" = some s2 → s2 ∈ c5st.activeIds →
        s2 ∉ (hookStepF (7 + 1) 1 c5st (HookK.selfRemove "a")).activeIds ∧
        registryGet (hookStepF (7 + 1) 1 c5st (HookK.selfRemove "a")).registry "a"
          = none)) :=
  ⟨⟨by decide, by decide⟩,
    c5_hook_guard_is_membership_only 7 1 "a" c5st (by decide) (by decide)⟩

/-! ### Characterizing single loop iterations -/

theorem hooksOf_user (st : St) (sid : Nat) (h : NoSelfHooks st) :
    ∀ hh ∈ hooksOf st sid, hookIsUser hh = true := by
  intro hh hm
  rw [hooksOf] at hm
  obtain ⟨p, hp, he⟩ := List.mem_map.mp hm
  exact he ▸ h p (List.mem_filter.mp hp).1

theorem childrenOf_nil (st : St) (sid : Nat) (h : ∀ q ∈ st.scopeParent, q.2 ≠ sid) :
    childrenOf st sid = [] := by
  rw [childrenOf]
  have hf : st.scopeParent.filter (fun q => q.2 == sid) = [] := by
    apply List.filter_eq_nil_iff.mpr
    intro q hq
    rw [beq_eq_false_iff_ne.mpr (h q hq)]
    exact Bool.false_ne_true
  rw [hf, List.map_nil]

theorem foldl_hookStep_users (fuel sid : Nat) : ∀ (hs : List HookK) (st : St),
    (∀ hh ∈ hs, hookIsUser hh = true) →
    hs.foldl (hookStepF fuel sid) st
      = { st with fired := st.fired ++ hs.map (fun hh => (sid, hh)) }
  | [], st, _ => by
    rw [List.foldl_nil, List.map_nil, List.append_nil]
  | hh :: rest, st, hus => by
    rw [List.foldl_cons]
    have hstep : hookStepF fuel sid st hh = { st with fired := st.fired ++ [(sid, hh)] } := by
      cases hh with
      | user t => rfl
      | selfRemove k =>
        have hfalse := hus _ (List.mem_cons_self _ _)
        rw [hookIsUser] at hfalse
        exact absurd hfalse Bool.false_ne_true
    rw [hstep, foldl_hookStep_users fuel sid rest _
      (fun hh2 h2 => hus hh2 (List.mem_cons_of_mem _ h2))]
    simp [List.append_assoc]

/-- Stopping a live scope whose hooks are all caller hooks and that has no
child scopes: it goes inert, its hooks fire in order, nothing else changes. -/
theorem stopScope_userOnly (fuel sid : Nat) (st : St)
    (hmem : sid ∈ st.activeIds)
    (hus : ∀ hh ∈ hooksOf st sid, hookIsUser hh = true)
    (hnoc : ∀ q ∈ st.scopeParent, q.2 ≠ sid) :
    stopScopeF (fuel + 1) sid st
      = { st with
          activeIds := st.activeIds.erase sid,
          watchActive := if st.watchOwner = some sid then false else st.watchActive,
          fired := st.fired ++ (hooksOf st sid).map (fun hh => (sid, hh)) } := by
  rw [stopScopeF_succ, if_pos hmem, stopHooksPhase]
  have he : hooksOf (eraseActive sid st) sid = hooksOf st sid := rfl
  rw [he, foldl_hookStep_users fuel sid _ _ hus]
  rw [childrenOf_eraseActive, childrenOf_nil st sid hnoc, stopChildren, List.foldl_nil]
  rfl

/-- One removal iteration of `part_000` on a registered key whose scope is a
live leaf with only caller hooks: the scope goes inert, its hooks fire, and
the key's entry is deleted. -/
theorem removeStepEff_char (k : Key) (st : St) (sid : Nat)
    (hget : registryGet st.registry k = some sid)
    (hus : ∀ hh ∈ hooksOf st sid, hookIsUser hh = true)
    (hnoc : ∀ q ∈ st.scopeParent, q.2 ≠ sid)
    (hact : sid ∈ st.activeIds) :
    removeStepEff k st
      = { st with
          activeIds := st.activeIds.erase sid,
          watchActive := if st.watchOwner = some sid then false else st.watchActive,
          fired := st.fired ++ (hooksOf st sid).map (fun hh => (sid, hh)),
          registry := registryDelete st.registry k } := by
  have hstop : stopScope sid st
      = { st with
          activeIds := st.activeIds.erase sid,
          watchActive := if st.watchOwner = some sid then false else st.watchActive,
          fired := st.fired ++ (hooksOf st sid).map (fun hh => (sid, hh)) } :=
    stopScope_userOnly 7 sid st hact hus hnoc
  rw [removeStepEff]
  rw [if_pos (show registryHas st.registry k = true by rw [registryHas, hget]; rfl)]
  simp only [hget]
  rw [hstop]

/-- A skipped removal: the key is not in the map. -/
theorem removeStepEff_skip (k : Key) (st : St)
    (hhas : registryHas st.registry k = false) :
    removeStepEff k st = st := by
  rw [removeStepEff, if_neg (by rw [hhas]; exact Bool.false_ne_true)]

/-- One addition iteration on an unregistered key, watch-effect variant. -/
theorem addStepEff_char (h : Handler) (k : Key) (st : St)
    (hhas : registryHas st.registry k = false) :
    addStepEff h k st
      = ({ st with
            nextId := st.nextId + 1,
            activeIds := st.activeIds ++ [st.nextId],
            scopeParent := st.scopeParent ++ [(st.nextId, st.topScope)],
            scopeKey := st.scopeKey ++ [(st.nextId, k)],
            registry := registrySet st.registry k st.nextId,
            hooks := st.hooks ++ (h k).hookTags.map (fun t => (st.nextId, HookK.user t)),
            handlerLog := st.handlerLog ++ [k] }, (h k).throws) := by
  rw [addStepEff, if_neg (by rw [hhas]; exact Bool.false_ne_true)]
  rfl

/-- A skipped addition: the key is already in the map. -/
theorem addStepEff_skip (h : Handler) (k : Key) (st : St)
    (hhas : registryHas st.registry k = true) :
    addStepEff h k st = (st, false) := by
  rw [addStepEff, if_pos hhas]

theorem registrySet_append (reg : List (Key × Nat)) (k : Key) (v : Nat)
    (h : k ∉ reg.map Prod.fst) : registrySet reg k v = reg ++ [(k, v)] := by
  induction reg with
  | nil => rfl
  | cons p rest ih =>
    rw [List.map_cons, List.mem_cons] at h
    push_neg at h
    rw [registrySet, if_neg (fun e => h.1 e.symm), List.cons_append, ih h.2]

theorem registryHas_none_get (reg : List (Key × Nat)) (k : Key)
    (hhas : registryHas reg k = false) : registryGet reg k = none :=
  (registryGet_none_iff reg k).mpr ((registryHas_false_iff reg k).mp hhas)

/-- The uniqueness invariant follows from ownership: two live scopes created
for the same key are both the registered scope of that key. -/
theorem atMostOneLive_of_regOwns (st : St) (h : RegOwns st) : atMostOneLive st := by
  intro p hp q hq hp1 hq1 he
  have h1 := h p hp hp1
  have h2 := h q hq hq1
  rw [he] at h1
  rw [h1] at h2
  exact Option.some.inj h2

/-- Registering a fresh scope for an unregistered key preserves the core
invariant, whatever happens to the hook, log and fired fields. -/
theorem InvCore_add (st : St) (k : Key) (hks : List (Nat × HookK))
    (lg : List Key) (fi : List (Nat × HookK)) (wa : Bool)
    (hi : InvCore st) (hknot : k ∉ st.registry.map Prod.fst) :
    InvCore { st with
      nextId := st.nextId + 1,
      activeIds := st.activeIds ++ [st.nextId],
      scopeParent := st.scopeParent ++ [(st.nextId, st.topScope)],
      scopeKey := st.scopeKey ++ [(st.nextId, k)],
      registry := registrySet st.registry k st.nextId,
      hooks := hks, handlerLog := lg, fired := fi, watchActive := wa } := by
  have hgetnone : registryGet st.registry k = none := (registryGet_none_iff _ _).mpr hknot
  have hsetapp : registrySet st.registry k st.nextId = st.registry ++ [(k, st.nextId)] :=
    registrySet_append _ _ _ hknot
  refine ⟨?_, ?_, ?_, ?_, ?_, ?_, ?_, ?_, ?_⟩
  · intro q hq hqa
    rcases List.mem_append.mp hq with hold | hnew
    · rcases List.mem_append.mp hqa with ha | hn
      · have hgo := hi.regOwns q hold ha
        have hne : q.2 ≠ k := by
          intro e
          rw [e, hgetnone] at hgo
          exact Option.noConfusion hgo
        rw [registryGet_set_ne _ _ _ _ hne]
        exact hgo
      · have he : q.1 = st.nextId := List.mem_singleton.mp hn
        have := hi.tagsFresh q hold
        rw [he] at this
        exact absurd this (Nat.lt_irrefl _)
    · have he : q = (st.nextId, k) := List.mem_singleton.mp hnew
      rw [he]
      exact registryGet_set_self _ _ _
  · intro p hp
    rw [hsetapp] at hp
    rcases List.mem_append.mp hp with hold | hnew
    · exact List.mem_append_left _ (hi.regActive p hold)
    · rw [List.mem_singleton.mp hnew]
      exact List.mem_append_right _ (List.mem_singleton.mpr rfl)
  · intro q hq
    rcases List.mem_append.mp hq with hold | hnew
    · exact (hi.tagsFresh q hold).trans (Nat.lt_succ_self _)
    · rw [List.mem_singleton.mp hnew]
      exact Nat.lt_succ_self _
  · intro a ha
    rcases List.mem_append.mp ha with hold | hnew
    · exact (hi.activeFresh a hold).trans (Nat.lt_succ_self _)
    · rw [List.mem_singleton.mp hnew]
      exact Nat.lt_succ_self _
  · exact hi.topFresh.trans (Nat.lt_succ_self _)
  · refine hi.activeNodup.append (List.nodup_singleton _) ?_
    intro a ha hn
    rw [List.mem_singleton.mp hn] at ha
    exact Nat.lt_irrefl _ (hi.activeFresh _ ha)
  · intro p hp
    rw [hsetapp] at hp
    rcases List.mem_append.mp hp with hold | hnew
    · exact hi.regNotTop p hold
    · rw [List.mem_singleton.mp hnew]
      intro e
      have := hi.topFresh
      rw [← e] at this
      exact Nat.lt_irrefl _ this
  · rw [hsetapp, List.map_append]
    refine hi.keysNodup.append (List.nodup_singleton _) ?_
    intro a ha hn
    rw [List.mem_singleton.mp hn] at ha
    exact hknot ha
  · rw [hsetapp, List.map_append]
    refine hi.valsNodup.append (List.nodup_singleton _) ?_
    intro a ha hn
    rw [List.mem_singleton.mp hn] at ha
    obtain ⟨p, hp, he⟩ := List.mem_map.mp ha
    have := hi.activeFresh _ (hi.regActive p hp)
    rw [he] at this
    exact Nat.lt_irrefl _ this

/-- One addition iteration of the deep variant (no membership guard; the
self-removing hook is appended after a normal handler return). -/
theorem addStepDeep_char (h : Handler) (k : Key) (st : St) :
    addStepDeep h k st
      = ({ st with
            nextId := st.nextId + 1,
            activeIds := st.activeIds ++ [st.nextId],
            scopeParent := st.scopeParent ++ [(st.nextId, st.topScope)],
            scopeKey := st.scopeKey ++ [(st.nextId, k)],
            registry := registrySet st.registry k st.nextId,
            hooks := st.hooks ++ (h k).hookTags.map (fun t => (st.nextId, HookK.user t))
              ++ (if (h k).throws = true then [] else [(st.nextId, HookK.selfRemove k)]),
            handlerLog := st.handlerLog ++ [k] }, (h k).throws) := by
  cases hth : (h k).throws with
  | false => simp [addStepDeep, runHandler, hth]
  | true => simp [addStepDeep, runHandler, hth]

/-! ### Invariant preservation by the loop iterations -/

theorem removeStepEff_inv (k : Key) (st : St) (hi : InvEff st) :
    InvEff (removeStepEff k st) := by
  cases hb : registryHas st.registry k with
  | false =>
    rw [removeStepEff_skip k st hb]
    exact hi
  | true =>
    obtain ⟨sid, hget⟩ : ∃ sid, registryGet st.registry k = some sid := by
      rw [registryHas] at hb
      cases hg2 : registryGet st.registry k with
      | none => rw [hg2] at hb; simp at hb
      | some v => exact ⟨v, rfl⟩
    have hmemP : (k, sid) ∈ st.registry := registryGet_mem _ _ _ hget
    have hact : sid ∈ st.activeIds := hi.core.regActive _ hmemP
    have hnotTop : sid ≠ st.topScope := hi.core.regNotTop _ hmemP
    have hnoc : ∀ q ∈ st.scopeParent, q.2 ≠ sid :=
      fun q hq e => hnotTop (e.symm.trans (hi.flat q hq))
    rw [removeStepEff_char k st sid hget (hooksOf_user st sid hi.noSelf) hnoc hact]
    have hdel : registryDelete st.registry k
        = st.registry.filter (fun p => !(p.1 == k)) :=
      registryDelete_eq_filter _ _ hi.core.keysNodup
    have hdelmem : ∀ p, p ∈ registryDelete st.registry k →
        p ∈ st.registry ∧ p.1 ≠ k ∧ p.2 ≠ sid := by
      intro p hp
      rw [hdel] at hp
      have hp2 : p ∈ st.registry := List.mem_of_mem_filter hp
      have hp1 : p.1 ≠ k := by simpa using List.of_mem_filter hp
      refine ⟨hp2, hp1, ?_⟩
      intro e
      have hpp : p = (k, sid) :=
        List.inj_on_of_nodup_map hi.core.valsNodup hp2 hmemP e
      rw [hpp] at hp1
      exact hp1 rfl
    refine ⟨⟨?_, ?_, hi.core.tagsFresh, ?_, hi.core.topFresh, hi.core.activeNodup.erase _,
      ?_, ?_, ?_⟩, hi.noSelf, hi.flat⟩
    · intro q hq hqa
      obtain ⟨hne, hmem2⟩ := (hi.core.activeNodup.mem_erase_iff).mp hqa
      have hgo := hi.core.regOwns q hq hmem2
      have hkne : q.2 ≠ k := by
        intro e
        rw [e, hget] at hgo
        exact hne (Option.some.inj hgo).symm
      rw [registryGet_delete_ne _ _ _ hkne]
      exact hgo
    · intro p hp
      obtain ⟨hp2, -, hpsid⟩ := hdelmem p hp
      exact (List.mem_erase_of_ne hpsid).mpr (hi.core.regActive p hp2)
    · intro a ha
      exact hi.core.activeFresh a (List.mem_of_mem_erase ha)
    · intro p hp
      exact hi.core.regNotTop p (hdelmem p hp).1
    · exact hi.core.keysNodup.sublist ((registryDelete_sublist _ _).map Prod.fst)
    · exact hi.core.valsNodup.sublist ((registryDelete_sublist _ _).map Prod.snd)

theorem addStepEff_inv (h : Handler) (k : Key) (st : St) (hi : InvEff st) :
    InvEff (addStepEff h k st).1 := by
  cases hb : registryHas st.registry k with
  | true =>
    rw [addStepEff_skip h k st hb]
    exact hi
  | false =>
    rw [addStepEff_char h k st hb]
    have hknot : k ∉ st.registry.map Prod.fst := (registryHas_false_iff _ _).mp hb
    refine ⟨InvCore_add st k _ _ _ _ hi.core hknot, ?_, ?_⟩
    · intro p hp
      rcases List.mem_append.mp hp with hold | hnew
      · exact hi.noSelf p hold
      · obtain ⟨t, -, he⟩ := List.mem_map.mp hnew
        rw [← he]
        rfl
    · intro q hq
      rcases List.mem_append.mp hq with hold | hnew
      · exact hi.flat q hold
      · rw [List.mem_singleton.mp hnew]

theorem addStepDeep_inv (h : Handler) (k : Key) (st : St) (hi : InvCore st)
    (hb : registryHas st.registry k = false) : InvCore (addStepDeep h k st).1 := by
  rw [addStepDeep_char]
  exact InvCore_add st k _ _ _ _ hi ((registryHas_false_iff _ _).mp hb)

/-! ### Invariants along whole traces -/

theorem removeLoopEffTrace_inv : ∀ (ks : List Key) (st : St), InvEff st →
    InvEff (removeLoopEff ks st) ∧ ∀ s ∈ removeLoopEffTrace ks st, InvEff s
  | [], st, hi => ⟨hi, by intro s hs; exact absurd hs (List.not_mem_nil s)⟩
  | k :: rest, st, hi => by
    have h1 : InvEff (removeStepEff k st) := removeStepEff_inv k st hi
    obtain ⟨ha, hb⟩ := removeLoopEffTrace_inv rest (removeStepEff k st) h1
    constructor
    · rw [removeLoopEff]
      exact ha
    · intro s hs
      simp only [removeLoopEffTrace] at hs
      rcases List.mem_cons.mp hs with he | hm
      · rw [he]; exact h1
      · exact hb s hm

theorem addLoopEffTrace_inv (h : Handler) : ∀ (ks : List Key) (st : St), InvEff st →
    ∀ s ∈ addLoopEffTrace h ks st, InvEff s
  | [], _, _ => by intro s hs; exact absurd hs (List.not_mem_nil s)
  | k :: rest, st, hi => by
    intro s hs
    have h1 : InvEff (addStepEff h k st).1 := addStepEff_inv h k st hi
    simp only [addLoopEffTrace] at hs
    by_cases ht : (addStepEff h k st).2 = true
    · rw [if_pos ht] at hs
      rw [List.mem_singleton.mp hs]
      exact h1
    · rw [if_neg ht] at hs
      rcases List.mem_cons.mp hs with he | hm
      · rw [he]; exact h1
      · exact addLoopEffTrace_inv h rest _ h1 s hm

theorem addLoopDeepTrace_inv (h : Handler) : ∀ (ks : List Key) (st : St), InvCore st →
    ks.Nodup → (∀ k ∈ ks, registryHas st.registry k = false) →
    ∀ s ∈ addLoopDeepTrace h ks st, InvCore s
  | [], _, _, _, _ => by intro s hs; exact absurd hs (List.not_mem_nil s)
  | k :: rest, st, hi, hnd, hpend => by
    intro s hs
    have hbk : registryHas st.registry k = false := hpend k (List.mem_cons_self _ _)
    have h1 : InvCore (addStepDeep h k st).1 := addStepDeep_inv h k st hi hbk
    have hpend2 : ∀ k2 ∈ rest, registryHas (addStepDeep h k st).1.registry k2 = false := by
      intro k2 hk2
      have hne : k2 ≠ k := by
        intro e
        rw [List.nodup_cons] at hnd
        exact hnd.1 (e ▸ hk2)
      have hreg : (addStepDeep h k st).1.registry = registrySet st.registry k st.nextId := by
        rw [addStepDeep_char]
      rw [hreg, registryHas, registryGet_set_ne _ _ _ _ hne, ← registryHas]
      exact hpend k2 (List.mem_cons_of_mem _ hk2)
    simp only [addLoopDeepTrace] at hs
    by_cases ht : (addStepDeep h k st).2 = true
    · rw [if_pos ht] at hs
      rw [List.mem_singleton.mp hs]
      exact h1
    · rw [if_neg ht] at hs
      rcases List.mem_cons.mp hs with he | hm
      · rw [he]; exact h1
      · exact addLoopDeepTrace_inv h rest _ h1 (List.nodup_cons.mp hnd).2 hpend2 s hm

/-! ### C3: at most one live scope per key, even transiently -/

/-- C3: under the state invariants, every intermediate state of a
reconciliation pass — the starting state, the state after each removal, and
the state after each addition, with removals all preceding additions as in
the source — has at most one live scope per key, in both variants.  (The
watch-effect variant's pass stops scopes, so its part additionally assumes
the hook and scope-tree shape of the states that variant produces.) -/
theorem c3_no_two_live_scopes_per_key (h : Handler) (st : St)
    (hcore : InvCore st) (hnodup : (objKeys st).Nodup) :
    ((NoSelfHooks st ∧ FlatParents st) → ∀ s ∈ passEffTrace h st, atMostOneLive s) ∧
    (∀ s ∈ passDeepTrace h st, atMostOneLive s) := by
  constructor
  · rintro ⟨hns, hf⟩ s hs
    have hie : InvEff st := ⟨hcore, hns, hf⟩
    simp only [passEffTrace] at hs
    rcases List.mem_cons.mp hs with he | hm
    · rw [he]
      exact atMostOneLive_of_regOwns _ hie.core.regOwns
    · rcases List.mem_append.mp hm with h1 | h2
      · exact atMostOneLive_of_regOwns _
          ((removeLoopEffTrace_inv _ _ hie).2 s h1).core.regOwns
      · exact atMostOneLive_of_regOwns _
          (addLoopEffTrace_inv h _ _ (removeLoopEffTrace_inv _ _ hie).1 s h2).core.regOwns
  · intro s hs
    simp only [passDeepTrace] at hs
    rcases List.mem_cons.mp hs with he | hm
    · rw [he]
      exact atMostOneLive_of_regOwns _ hcore.regOwns
    · have hpend : ∀ k ∈ keysToAddDeep st, registryHas st.registry k = false := by
        intro k hk
        rw [keysToAddDeep] at hk
        simpa using List.of_mem_filter hk
      have hnd : (keysToAddDeep st).Nodup := hnodup.filter _
      exact atMostOneLive_of_regOwns _
        (addLoopDeepTrace_inv h _ st hcore hnd hpend s hm).regOwns

/-- Witness for C3 on a fresh reconciler over `{a: 1, b: 2}` (both variants'
traces then perform two additions). -/
theorem c3_no_two_live_scopes_per_key_witness :
    (InvCore (initSt [("a", 1), ("b", 2)]) ∧ (objKeys (initSt [("a", 1), ("b", 2)])).Nodup ∧
      NoSelfHooks (initSt [("a", 1), ("b", 2)]) ∧ FlatParents (initSt [("a", 1), ("b", 2)])) ∧
    ((∀ s ∈ passEffTrace hBasic (initSt [("a", 1), ("b", 2)]), atMostOneLive s) ∧
      (∀ s ∈ passDeepTrace hBasic (initSt [("a", 1), ("b", 2)]), atMostOneLive s)) := by
  have hc : InvCore (initSt [("a", 1), ("b", 2)]) :=
    ⟨by decide, by decide, by decide, by decide, by decide, by decide, by decide,
      by decide, by decide⟩
  have hmain := c3_no_two_live_scopes_per_key hBasic (initSt [("a", 1), ("b", 2)])
    hc (by decide)
  exact ⟨⟨hc, by decide, by decide, by decide⟩,
    ⟨hmain.1 ⟨by decide, by decide⟩, hmain.2⟩⟩

/-! ### The parent-scope cascade of the deep variant -/

/-- A self-removing hook firing while the registered scope of its key is
already inert: the re-entrant stop is a no-op and the hook deletes the
entry. -/
theorem hookStepF_selfRemove_inert (fuel sid : Nat) (k : Key) (s : St) (s2 : Nat)
    (hget : registryGet s.registry k = some s2)
    (hinert : s2 ∉ s.activeIds) :
    hookStepF fuel sid s (HookK.selfRemove k)
      = { s with
          fired := s.fired ++ [(sid, HookK.selfRemove k)],
          registry := registryDelete s.registry k } := by
  rw [hookStepF]
  dsimp only
  simp only [registryHas, hget, Option.isSome_some]
  rw [if_true]
  rw [stopScopeF_not_active fuel s2
    { s with fired := s.fired ++ [(sid, HookK.selfRemove k)] } hinert]

/-- Stopping a live leaf scope that is registered for key `k` and whose last
hook is its self-removing hook: the scope goes inert, all its hooks fire in
order, and the self-removing hook deletes the key's entry (its re-entrant
stop of the by-then inert scope is a no-op). -/
theorem stopScope_selfLast (fuel sid : Nat) (k : Key) (st : St)
    (hact : sid ∈ st.activeIds)
    (hnodupA : st.activeIds.Nodup)
    (hget : registryGet st.registry k = some sid)
    (hne : hooksOf st sid ≠ [])
    (hlast : (hooksOf st sid).getLast? = some (HookK.selfRemove k))
    (hus : ∀ hh ∈ (hooksOf st sid).dropLast, hookIsUser hh = true)
    (hnoc : ∀ q ∈ st.scopeParent, q.2 ≠ sid) :
    stopScopeF (fuel + 1) sid st
      = { st with
          activeIds := st.activeIds.erase sid,
          watchActive := if st.watchOwner = some sid then false else st.watchActive,
          fired := st.fired ++ (hooksOf st sid).map (fun hh => (sid, hh)),
          registry := registryDelete st.registry k } := by
  have hsplit : (hooksOf st sid).dropLast ++ [HookK.selfRemove k] = hooksOf st sid := by
    have h1 := List.dropLast_append_getLast hne
    have h2 : (hooksOf st sid).getLast hne = HookK.selfRemove k := by
      have h3 := List.getLast?_eq_getLast (hooksOf st sid) hne
      rw [h3] at hlast
      exact Option.some.inj hlast
    rw [h2] at h1
    exact h1
  rw [stopScopeF_succ, if_pos hact, stopHooksPhase]
  have he : hooksOf (eraseActive sid st) sid = hooksOf st sid := rfl
  rw [he, ← hsplit, List.foldl_append, foldl_hookStep_users fuel sid _ _ hus,
    List.foldl_cons, List.foldl_nil]
  rw [hookStepF_selfRemove_inert fuel sid k
    { eraseActive sid st with
      fired := (eraseActive sid st).fired
        ++ ((hooksOf st sid).dropLast).map (fun hh => (sid, hh)) }
    sid hget
    (by
      intro hmem
      exact ((hnodupA.mem_erase_iff).mp hmem).1 rfl)]
  rw [childrenOf_eraseActive, childrenOf_nil st sid hnoc, stopChildren, List.foldl_nil]
  simp [eraseActive, List.map_append, List.append_assoc]

theorem registryDelete_mem_facts (reg : List (Key × Nat)) (kc : Key) (c : Nat)
    (hkn : (reg.map Prod.fst).Nodup) (hvn : (reg.map Prod.snd).Nodup)
    (hp : (kc, c) ∈ reg) :
    ∀ p2 ∈ registryDelete reg kc, p2 ∈ reg ∧ p2.1 ≠ kc ∧ p2.2 ≠ c := by
  intro p2 hp2
  rw [registryDelete_eq_filter reg kc hkn] at hp2
  have hin : p2 ∈ reg := List.mem_of_mem_filter hp2
  have hne1 : p2.1 ≠ kc := by simpa using List.of_mem_filter hp2
  refine ⟨hin, hne1, ?_⟩
  intro e
  have hpp : p2 = (kc, c) := List.inj_on_of_nodup_map hvn hin hp e
  rw [hpp] at hne1
  exact hne1 rfl

theorem getLast?_mem_list {α : Type} {l : List α} {a : α} (h : l.getLast? = some a) :
    a ∈ l := by
  cases hl : l with
  | nil => rw [hl] at h; exact absurd h (by simp)
  | cons x xs =>
    rw [hl] at h
    have hne : x :: xs ≠ [] := List.cons_ne_nil x xs
    rw [List.getLast?_eq_getLast _ hne] at h
    rw [← Option.some.inj h]
    exact List.getLast_mem hne

theorem stopChildren_cons (fuel c : Nat) (cs : List Nat) (s : St) :
    stopChildren fuel (c :: cs) s = stopChildren fuel cs (stopScopeF fuel c s) := rfl

theorem stopPres_stopChildren (fuel : Nat) (cs : List Nat) (s : St) :
    StopPres s (stopChildren fuel cs s) := by
  rw [stopChildren]
  exact foldl_pres _ (fun s2 a hs => stopPres_trans hs (stopPres_stopScopeF fuel a s2)) _ _
    (stopPres_refl _)

theorem cascade_fold : ∀ (C : List Nat) (fuel : Nat) (s : St),
    C.Nodup →
    s.activeIds.Nodup →
    (∀ c ∈ C, c ∈ s.registry.map Prod.snd) →
    (∀ p ∈ s.registry, p.2 ∈ s.activeIds) →
    (∀ p ∈ s.registry, registryGet s.registry p.1 = some p.2) →
    (∀ p ∈ s.registry, hooksOf s p.2 ≠ [] ∧
      (hooksOf s p.2).getLast? = some (HookK.selfRemove p.1) ∧
      ∀ hh ∈ (hooksOf s p.2).dropLast, hookIsUser hh = true) →
    (∀ p ∈ s.registry, ∀ q ∈ s.scopeParent, q.2 ≠ p.2) →
    (s.registry.map Prod.fst).Nodup →
    (s.registry.map Prod.snd).Nodup →
    (∀ c ∈ C, s.watchOwner ≠ some c) →
    (stopChildren (fuel + 1) C s).registry
        = s.registry.filter (fun p => !(C.contains p.2)) ∧
      (∀ p ∈ s.registry, p.2 ∈ C →
        p.2 ∉ (stopChildren (fuel + 1) C s).activeIds ∧
        (p.2, HookK.selfRemove p.1) ∈ (stopChildren (fuel + 1) C s).fired) ∧
      (stopChildren (fuel + 1) C s).watchActive = s.watchActive
  | [], fuel, s, _, _, _, _, _, _, _, _, _, _ => by
    refine ⟨?_, ?_, rfl⟩
    · symm
      apply List.filter_eq_self.mpr
      intro a _
      rfl
    · intro p _ hmem
      exact absurd hmem (List.not_mem_nil _)
  | c :: rest, fuel, s, hCnd, hand, hC, hra, hget, hshape, hnoc, hkn, hvn, hw => by
    obtain ⟨p, hp, hpe⟩ := List.mem_map.mp (hC c (List.mem_cons_self _ _))
    subst hpe
    obtain ⟨hne1, hlast1, hus1⟩ := hshape p hp
    rw [stopChildren_cons,
      stopScope_selfLast fuel p.2 p.1 s (hra p hp) hand (hget p hp) hne1 hlast1 hus1
        (hnoc p hp),
      if_neg (hw p.2 (List.mem_cons_self _ _))]
    set s2 : St := { s with
      activeIds := s.activeIds.erase p.2,
      fired := s.fired ++ (hooksOf s p.2).map (fun hh => (p.2, hh)),
      registry := registryDelete s.registry p.1 } with hs2
    have hrestnd : rest.Nodup := (List.nodup_cons.mp hCnd).2
    have hcnotrest : p.2 ∉ rest := (List.nodup_cons.mp hCnd).1
    have hfacts := registryDelete_mem_facts s.registry p.1 p.2 hkn hvn hp
    have hsub : (registryDelete s.registry p.1).Sublist s.registry :=
      registryDelete_sublist _ _
    have ih := cascade_fold rest fuel s2 hrestnd (hand.erase _)
      (by
        intro c2 hc2
        obtain ⟨p2, hp2, hp2e⟩ := List.mem_map.mp (hC c2 (List.mem_cons_of_mem _ hc2))
        have hp2k : p2.1 ≠ p.1 := by
          intro e
          have hpp : p2 = p := List.inj_on_of_nodup_map hkn hp2 hp e
          rw [hpp] at hp2e
          rw [← hp2e] at hc2
          exact hcnotrest hc2
        have hp2in : p2 ∈ registryDelete s.registry p.1 := by
          rw [registryDelete_eq_filter _ _ hkn]
          refine List.mem_filter.mpr ⟨hp2, ?_⟩
          rw [beq_eq_false_iff_ne.mpr hp2k]
          rfl
        rw [← hp2e]
        exact List.mem_map_of_mem Prod.snd hp2in)
      (by
        intro p2 hp2
        obtain ⟨hin, hk2, hv2⟩ := hfacts p2 hp2
        exact (List.mem_erase_of_ne hv2).mpr (hra p2 hin))
      (by
        intro p2 hp2
        obtain ⟨hin, hk2, hv2⟩ := hfacts p2 hp2
        rw [show s2.registry = registryDelete s.registry p.1 from rfl,
          registryGet_delete_ne _ _ _ hk2]
        exact hget p2 hin)
      (by
        intro p2 hp2
        obtain ⟨hin, hk2, hv2⟩ := hfacts p2 hp2
        exact hshape p2 hin)
      (by
        intro p2 hp2
        obtain ⟨hin, hk2, hv2⟩ := hfacts p2 hp2
        exact hnoc p2 hin)
      (hkn.sublist (hsub.map Prod.fst))
      (hvn.sublist (hsub.map Prod.snd))
      (fun c2 hc2 => hw c2 (List.mem_cons_of_mem _ hc2))
    obtain ⟨iha, ihb, ihc⟩ := ih
    refine ⟨?_, ?_, ihc⟩
    · rw [iha]
      rw [show s2.registry = registryDelete s.registry p.1 from rfl,
        registryDelete_eq_filter _ _ hkn, List.filter_filter]
      apply List.filter_congr
      intro x hx
      by_cases hxr : rest.contains x.2 = true
      · rw [List.contains_cons, hxr]
        simp
      · have hxr2 : rest.contains x.2 = false := by
          cases hb2 : rest.contains x.2
          · rfl
          · exact absurd hb2 hxr
        rw [List.contains_cons, hxr2]
        by_cases hxk : x.1 = p.1
        · have hxp : x = p := List.inj_on_of_nodup_map hkn hx hp hxk
          rw [hxp]
          simp
        · have hxv : x.2 ≠ p.2 := by
            intro e
            exact hxk (congrArg Prod.fst (List.inj_on_of_nodup_map hvn hx hp e))
          rw [beq_eq_false_iff_ne.mpr hxv, beq_eq_false_iff_ne.mpr hxk]
          simp
    · intro p0 hp0 hmem
      rcases List.mem_cons.mp hmem with he | hm
      · have hp0p : p0 = p := List.inj_on_of_nodup_map hvn hp0 hp he
        subst hp0p
        obtain ⟨-, -, -, -, -, -, -, -, hactsub, -, hfpre⟩ :=
          stopPres_stopChildren (fuel + 1) rest s2
        constructor
        · intro hmem2
          have := hactsub.subset hmem2
          rw [show s2.activeIds = s.activeIds.erase p0.2 from rfl] at this
          exact ((hand.mem_erase_iff).mp this).1 rfl
        · apply hfpre.sublist.subset
          rw [show s2.fired = s.fired ++ (hooksOf s p0.2).map (fun hh => (p0.2, hh)) from rfl]
          apply List.mem_append_right
          apply List.mem_map_of_mem (fun hh => (p0.2, hh))
          exact getLast?_mem_list hlast1
      · have hp0ne : p0.1 ≠ p.1 := by
          intro e
          have hpp : p0 = p := List.inj_on_of_nodup_map hkn hp0 hp e
          rw [hpp] at hm
          exact hcnotrest hm
        have hp0in : p0 ∈ s2.registry := by
          rw [show s2.registry = registryDelete s.registry p.1 from rfl,
            registryDelete_eq_filter _ _ hkn]
          refine List.mem_filter.mpr ⟨hp0, ?_⟩
          rw [beq_eq_false_iff_ne.mpr hp0ne]
          rfl
        exact ihb p0 hp0in hm

theorem c2_teardown_by_variant (st : St) (hwf : WFDeep st) :
    ((disposeDeep st).watchActive = false ∧
      (disposeDeep st).registry = [] ∧
      (∀ p ∈ st.registry, p.2 ∉ (disposeDeep st).activeIds ∧
        (p.2, HookK.selfRemove p.1) ∈ (disposeDeep st).fired) ∧
      (∀ h2 : Handler, notifyDeep h2 (disposeDeep st) = (disposeDeep st, none))) ∧
    (∀ st2 : St, (stopEff st2).watchActive = false ∧
      (stopEff st2).registry = st2.registry ∧
      (stopEff st2).activeIds = st2.activeIds ∧
      (stopEff st2).fired = st2.fired ∧
      (∀ h2 : Handler, notifyEff h2 (stopEff st2) = (stopEff st2, none))) := by
  obtain ⟨h1top, h2own, h3hk, h4flat, h5nd, h6reg, h7par, h8ra, h9nt, h10get,
    h11shape, h12vn, h13kn, h14an⟩ := hwf
  have hd : disposeDeep st
      = stopChildren 7 (childrenOf (eraseActive st.topScope st) st.topScope)
          (stopHooksPhase 7 st.topScope (eraseActive st.topScope st)) := by
    show stopScopeF (7 + 1) st.topScope st = _
    rw [stopScopeF_succ, if_pos h1top]
  have hhk : hooksOf st st.topScope = [] := by
    have hnotm : st.topScope ∉ st.hooks.map Prod.fst := by
      intro hm
      obtain ⟨q, hq, he⟩ := List.mem_map.mp hm
      exact h3hk q hq he
    rw [hooksOf, hooks_filter_fresh hnotm, List.map_nil]
  have hph : stopHooksPhase 7 st.topScope (eraseActive st.topScope st)
      = eraseActive st.topScope st := by
    rw [stopHooksPhase,
      show hooksOf (eraseActive st.topScope st) st.topScope = hooksOf st st.topScope
        from rfl,
      hhk, List.foldl_nil]
  have hch : childrenOf st st.topScope = st.scopeParent.map Prod.fst := by
    rw [childrenOf]
    have : st.scopeParent.filter (fun q => q.2 == st.topScope) = st.scopeParent := by
      apply List.filter_eq_self.mpr
      intro q hq
      exact beq_iff_eq.mpr (h4flat q hq)
    rw [this]
  have hfinal : disposeDeep st
      = stopChildren 7 (st.scopeParent.map Prod.fst) (eraseActive st.topScope st) := by
    rw [hd, hph, childrenOf_eraseActive, hch]
  have hcas := cascade_fold (st.scopeParent.map Prod.fst) 6 (eraseActive st.topScope st)
    h5nd (h14an.erase _)
    (by
      intro c hc
      obtain ⟨q, hq, he⟩ := List.mem_map.mp hc
      obtain ⟨p, hp, hpe⟩ := h6reg q hq
      rw [← he, ← hpe]
      exact List.mem_map_of_mem Prod.snd hp)
    (by
      intro p hp
      exact (List.mem_erase_of_ne (h9nt p hp)).mpr (h8ra p hp))
    (fun p hp => h10get p hp)
    (fun p hp => h11shape p hp)
    (by
      intro p hp q hq e
      exact h9nt p hp (e.symm.trans (h4flat q hq)))
    h13kn h12vn
    (by
      intro c hc e
      obtain ⟨q, hq, he⟩ := List.mem_map.mp hc
      obtain ⟨p, hp, hpe⟩ := h6reg q hq
      have htopc : st.topScope = c := by
        have e2 : st.watchOwner = some c := e
        rw [h2own] at e2
        exact Option.some.inj e2
      apply h9nt p hp
      rw [hpe, he, ← htopc])
  have hra2 : (stopChildren 7 (st.scopeParent.map Prod.fst)
      (eraseActive st.topScope st)).registry
      = (eraseActive st.topScope st).registry.filter
          (fun p => !((st.scopeParent.map Prod.fst).contains p.2)) := hcas.1
  have hrb2 : ∀ p ∈ (eraseActive st.topScope st).registry,
      p.2 ∈ st.scopeParent.map Prod.fst →
      p.2 ∉ (stopChildren 7 (st.scopeParent.map Prod.fst)
          (eraseActive st.topScope st)).activeIds ∧
      (p.2, HookK.selfRemove p.1) ∈ (stopChildren 7 (st.scopeParent.map Prod.fst)
          (eraseActive st.topScope st)).fired := hcas.2.1
  have hrc2 : (stopChildren 7 (st.scopeParent.map Prod.fst)
      (eraseActive st.topScope st)).watchActive
      = (eraseActive st.topScope st).watchActive := hcas.2.2
  have hwa : (disposeDeep st).watchActive = false := by
    rw [hfinal, hrc2]
    simp [eraseActive, h2own]
  refine ⟨⟨hwa, ?_, ?_, ?_⟩, ?_⟩
  · rw [hfinal, hra2]
    apply List.filter_eq_nil_iff.mpr
    intro p hp
    have hpc : p.2 ∈ st.scopeParent.map Prod.fst :=
      List.mem_map_of_mem Prod.fst (h7par p hp)
    have hcc : (st.scopeParent.map Prod.fst).contains p.2 = true :=
      List.elem_eq_true_of_mem hpc
    rw [hcc, Bool.not_true]
    exact Bool.false_ne_true
  · intro p hp
    rw [hfinal]
    exact hrb2 p hp (List.mem_map_of_mem Prod.fst (h7par p hp))
  · intro h2
    rw [notifyDeep, hwa, if_neg Bool.false_ne_true]
  · intro st2
    refine ⟨rfl, rfl, rfl, rfl, ?_⟩
    intro h2
    rfl

theorem c2_teardown_by_variant_witness :
    WFDeep (useScopePerKeyDeep hBasic [("a", 1)]).1 ∧
    (((disposeDeep (useScopePerKeyDeep hBasic [("a", 1)]).1).watchActive = false ∧
      (disposeDeep (useScopePerKeyDeep hBasic [("a", 1)]).1).registry = [] ∧
      (∀ p ∈ (useScopePerKeyDeep hBasic [("a", 1)]).1.registry,
        p.2 ∉ (disposeDeep (useScopePerKeyDeep hBasic [("a", 1)]).1).activeIds ∧
        (p.2, HookK.selfRemove p.1)
          ∈ (disposeDeep (useScopePerKeyDeep hBasic [("a", 1)]).1).fired) ∧
      (∀ h2 : Handler, notifyDeep h2 (disposeDeep (useScopePerKeyDeep hBasic [("a", 1)]).1)
          = (disposeDeep (useScopePerKeyDeep hBasic [("a", 1)]).1, none))) ∧
    (∀ st2 : St, (stopEff st2).watchActive = false ∧
      (stopEff st2).registry = st2.registry ∧
      (stopEff st2).activeIds = st2.activeIds ∧
      (stopEff st2).fired = st2.fired ∧
      (∀ h2 : Handler, notifyEff h2 (stopEff st2) = (stopEff st2, none)))) :=
  ⟨by decide, c2_teardown_by_variant _ (by decide)⟩

end VueScope
